import Mathlib

/-!
Verification of the color-cycling frame generator (`color_cycling.py`).

The embedding models the core pipeline of `main`:
  * step 3 (lines 100-117): the ownership registry `color_list_map`,
    the seen-set `all_target_colors_rgb` and the duplicate warnings;
  * step 5 (lines 141-146): the frame count `num_frames`, a pairwise
    LCM reduction over the group lengths via `calculate_lcm`;
  * step 6 (lines 151-179): per frame, the substitution table
    `current_frame_map` (lines 158-165) and the in-place pixel remap
    loop (lines 169-173), appending each rendered frame in order.

Python dictionaries are modelled as functions into `Option` updated
pointwise (later writes shadow earlier ones, as in a dict); the seen-set
is modelled as a list queried by membership; loops over `enumerate`
become folds over `List.enumFrom 0`.
-/

set_option autoImplicit false

namespace ColorCycling

/-- An exact RGB triple, the pixel/key value type of the script
(`hex_to_rgb` produces 3-tuples of channel ints). -/
structure Color where
  r : Nat
  g : Nat
  b : Nat
  deriving DecidableEq, Repr, Inhabited

/-- The per-frame substitution dictionary `current_frame_map`. -/
abbrev FrameMap := Color → Option Color

/-- The ownership dictionary `color_list_map` (color to owning group index). -/
abbrev Registry := Color → Option Nat

/-- Line 25-27: `abs(a * b) // math.gcd(a, b) if a != 0 and b != 0 else 0`.
Both call sites pass list lengths, so the faithful domain is `Nat`
(where `abs` is the identity). -/
def calculate_lcm (a b : Nat) : Nat :=
  if a ≠ 0 ∧ b ≠ 0 then a * b / Nat.gcd a b else 0

/-- The mutable state of the step-3 loop: the seen-set
`all_target_colors_rgb` (a set, modelled as a membership-queried list),
the ownership dict `color_list_map`, and the emitted duplicate warnings
(modelled by the color each warning names). -/
structure RegistryState where
  all_target_colors : List Color
  color_list_map : Registry
  warnings : List Color

/-- The initial state of the step-3 loop (lines 100-102). -/
def initRegistryState : RegistryState :=
  { all_target_colors := [], color_list_map := fun _ => none, warnings := [] }

/-- Lines 110-117, body of the inner loop over one group's colors:
if the color was already seen, warn and leave ownership unchanged;
otherwise record the current group index as owner.  In both cases the
color is added to the seen-set afterwards. -/
def processColor (list_index : Nat) (st : RegistryState) (c : Color) : RegistryState :=
  if c ∈ st.all_target_colors then
    { st with
      warnings := st.warnings ++ [c],
      all_target_colors := st.all_target_colors ++ [c] }
  else
    { st with
      color_list_map := fun x => if x = c then some list_index else st.color_list_map x,
      all_target_colors := st.all_target_colors ++ [c] }

/-- Lines 106-117: scan the groups in input order (`enumerate`),
processing every color of every group. -/
def buildRegistry (groups : List (List Color)) : RegistryState :=
  (List.enumFrom 0 groups).foldl (fun st p => p.2.foldl (processColor p.1) st) initRegistryState

/-- Line 164: the rotated replacement `color_list[(i + frame_index) % list_len]`
for position `i` of group `g`.  `frame_index` is an `Int` with Python's
nonnegative `%` semantics (`Int.emod`); the script only ever passes
naturals from `range(num_frames)`. -/
def rotate (g : List Color) (i : Nat) (frame_index : Int) : Color :=
  g.getD ((((i : Int) + frame_index) % (g.length : Int)).toNat) default

/-- Lines 161-165, body of the inner loop of the table build: write
`table[c] = rotate ...` only when the registry acknowledges the current
group as `c`'s owner (`color_list_map.get(original_color) == list_index`). -/
def applyStep (registry : Registry) (frame_index : Int) (list_index : Nat)
    (g : List Color) (t : FrameMap) (q : Nat × Color) : FrameMap :=
  if registry q.2 = some list_index then
    fun x => if x = q.2 then some (rotate g q.1 frame_index) else t x
  else t

/-- Lines 161-165: the inner loop over `enumerate(color_list)`. -/
def applyGroup (registry : Registry) (frame_index : Int) (list_index : Nat)
    (g : List Color) (t : FrameMap) : FrameMap :=
  (List.enumFrom 0 g).foldl (applyStep registry frame_index list_index g) t

/-- Lines 158-165: build `current_frame_map` for one frame index by
visiting every group (outer `enumerate(color_lists_rgb)` loop). -/
def buildFrameMap (groups : List (List Color)) (registry : Registry)
    (frame_index : Int) : FrameMap :=
  (List.enumFrom 0 groups).foldl (fun t p => applyGroup registry frame_index p.1 p.2 t)
    (fun _ => none)

/-- One accumulation step of `groupEntry`: the table entry for the fixed
color `c` contributed by visiting position `q` of group `g`. -/
def entryStep (g : List Color) (frame_index : Int) (c : Color)
    (a : Option Color) (q : Nat × Color) : Option Color :=
  if q.2 = c then some (rotate g q.1 frame_index) else a

/-- The table entry for color `c` that group `g` alone would produce:
the rotation of `c`'s last occurrence in `g` (later positions overwrite
earlier ones, as in the dict build), `none` when `c` does not occur in `g`. -/
def groupEntry (g : List Color) (frame_index : Int) (c : Color) : Option Color :=
  (List.enumFrom 0 g).foldl (entryStep g frame_index c) none

/-- Lines 170-173, body of the remap loop: read the pixel at index `i`
of the working buffer; if its color is a key of the table, overwrite it
with the substituted color. -/
def renderStep (t : FrameMap) (buf : List Color) (i : Nat) : List Color :=
  match t (buf.getD i default) with
  | some v => buf.set i v
  | none => buf

/-- Lines 169-173: the in-place remap loop over pixel indices, reading
and writing the working buffer (a fresh copy of the base pixels). -/
def renderFrame (t : FrameMap) (base : List Color) : List Color :=
  (List.range base.length).foldl (renderStep t) base

/-- Lines 141-146: `num_frames = 1`; if there are groups, seed with the
first group's length and reduce the rest with `calculate_lcm`. -/
def num_frames (groups : List (List Color)) : Nat :=
  match groups with
  | [] => 1
  | g :: gs => gs.foldl (fun n h => calculate_lcm n h.length) g.length

/-- The state of the step-6 frame loop: the base pixel buffer
(line 139, read to seed each frame's fresh working copy) and the frames
accumulated so far (line 151/179). -/
structure GenState where
  base_pixels : List Color
  frames : List (List Color)

/-- Lines 153-179, body of the frame loop: copy the base pixels, build
the substitution table for this frame index, remap the copy in place and
append it to the frame list. -/
def generateStep (groups : List (List Color)) (registry : Registry)
    (st : GenState) (frame_index : Nat) : GenState :=
  { st with
    frames := st.frames ++
      [renderFrame (buildFrameMap groups registry (frame_index : Int)) st.base_pixels] }

/-- Lines 151-179: the whole frame-generation loop over
`range(num_frames)`, started from the decoded base pixels and an empty
frame list. -/
def generateFrames (base : List Color) (groups : List (List Color)) : GenState :=
  (List.range (num_frames groups)).foldl
    (generateStep groups (buildRegistry groups).color_list_map)
    { base_pixels := base, frames := [] }

/-- The owning group index of `c` among the groups listed from position
`n` on: the first (lowest-index) group containing `c`.  Specification
device for the registry. -/
def firstOwnerFrom (n : Nat) : List (List Color) → Color → Option Nat
  | [], _ => none
  | g :: gs, c => if c ∈ g then some n else firstOwnerFrom (n + 1) gs c

/-- Sample color (red) for concrete checks. -/
def colR : Color := ⟨255, 0, 0⟩

/-- Sample color (green) for concrete checks. -/
def colG : Color := ⟨0, 255, 0⟩

/-- Sample color (blue) for concrete checks. -/
def colB : Color := ⟨0, 0, 255⟩

/-- Sample color (yellow) for concrete checks. -/
def colY : Color := ⟨255, 255, 0⟩

/-- Sample color (gray, used as an untargeted pixel) for concrete checks. -/
def colW : Color := ⟨128, 128, 128⟩

end ColorCycling

namespace ColorCycling

/-! ## Registry lemmas (step 3, lines 100-117) -/

/-- Both branches of the loop body add the visited color to the seen-set. -/
theorem processColor_targets (i : Nat) (st : RegistryState) (c : Color) :
    (processColor i st c).all_target_colors = st.all_target_colors ++ [c] := by
  unfold processColor; split <;> rfl

/-- The ownership dict is written only for a color not yet seen. -/
theorem processColor_map (i : Nat) (st : RegistryState) (c x : Color) :
    (processColor i st c).color_list_map x =
      if c ∉ st.all_target_colors ∧ x = c then some i else st.color_list_map x := by
  unfold processColor
  by_cases h : c ∈ st.all_target_colors
  · simp [h]
  · simp only [h, if_neg h, not_false_iff, true_and]
    by_cases hx : x = c <;> simp [hx]

/-- A warning is emitted exactly for a re-occurring color. -/
theorem processColor_warnings (i : Nat) (st : RegistryState) (c : Color) :
    (processColor i st c).warnings =
      if c ∈ st.all_target_colors then st.warnings ++ [c] else st.warnings := by
  unfold processColor
  by_cases h : c ∈ st.all_target_colors <;> simp [h]

/-- Seen-set after scanning one group: the previous seen-set plus the
group's colors. -/
theorem foldl_processColor_targets (i : Nat) :
    ∀ (cs : List Color) (st : RegistryState) (c : Color),
      (c ∈ (cs.foldl (processColor i) st).all_target_colors ↔
        c ∈ st.all_target_colors ∨ c ∈ cs) := by
  intro cs
  induction cs with
  | nil => intro st c; simp
  | cons c0 rest ih =>
    intro st c
    rw [List.foldl_cons, ih, processColor_targets]
    simp [List.mem_append, or_assoc]

/-- Ownership after scanning one group: an unseen color occurring in the
group is claimed with the current group index; every other color keeps
its previous (possibly absent) owner. -/
theorem foldl_processColor_map (i : Nat) :
    ∀ (cs : List Color) (st : RegistryState) (c : Color),
      (cs.foldl (processColor i) st).color_list_map c =
        if c ∉ st.all_target_colors ∧ c ∈ cs then some i
        else st.color_list_map c := by
  intro cs
  induction cs with
  | nil => intro st c; simp
  | cons c0 rest ih =>
    intro st c
    rw [List.foldl_cons, ih, processColor_targets, processColor_map]
    by_cases hB : c = c0
    · subst hB
      by_cases hA : c ∈ st.all_target_colors <;> simp [hA, List.mem_append]
    · by_cases hA : c ∈ st.all_target_colors <;>
        by_cases hC : c ∈ rest <;>
          simp [hA, hC, hB, List.mem_append]

/-- Warning count after scanning one group: every occurrence of `c` in
the group warns, except the first one when `c` was not seen before
(stated additively to stay in `Nat`). -/
theorem foldl_processColor_warnings (i : Nat) :
    ∀ (cs : List Color) (st : RegistryState) (c : Color),
      (cs.foldl (processColor i) st).warnings.count c +
          (if c ∉ st.all_target_colors ∧ c ∈ cs then 1 else 0) =
        st.warnings.count c + cs.count c := by
  intro cs
  induction cs with
  | nil => intro st c; simp
  | cons c0 rest ih =>
    intro st c
    rw [List.foldl_cons]
    have hih := ih (processColor i st c0) c
    rw [processColor_targets, processColor_warnings] at hih
    rw [List.count_cons]
    by_cases hB : c0 = c
    · subst hB
      by_cases hA : c0 ∈ st.all_target_colors <;>
        by_cases hC : c0 ∈ rest <;>
          simp [hA, hC, List.mem_append, List.count_append,
            List.count_singleton'] at hih ⊢ <;> omega
    · have hBne : ¬c = c0 := fun h => hB h.symm
      by_cases hA : c ∈ st.all_target_colors <;>
        by_cases hC : c ∈ rest <;>
          by_cases hD : c0 ∈ st.all_target_colors <;>
            simp [hA, hC, hD, hB, hBne, List.mem_append, List.count_append,
              List.count_singleton'] at hih ⊢ <;> omega

/-- Seen-set after the whole scan: exactly the colors of all groups. -/
theorem registryScan_targets :
    ∀ (gps : List (List Color)) (n : Nat) (st : RegistryState) (c : Color),
      (c ∈ ((List.enumFrom n gps).foldl
            (fun st p => p.2.foldl (processColor p.1) st) st).all_target_colors ↔
        c ∈ st.all_target_colors ∨ c ∈ gps.flatten) := by
  intro gps
  induction gps with
  | nil => intro n st c; simp
  | cons g rest ih =>
    intro n st c
    rw [List.enumFrom_cons, List.foldl_cons, ih, foldl_processColor_targets]
    simp [List.mem_append, or_assoc]

/-- Ownership after the whole scan: a color not seen before the scan is
owned by the first group (in scan order) that contains it. -/
theorem registryScan_map :
    ∀ (gps : List (List Color)) (n : Nat) (st : RegistryState) (c : Color),
      ((List.enumFrom n gps).foldl
          (fun st p => p.2.foldl (processColor p.1) st) st).color_list_map c =
        if c ∈ st.all_target_colors then st.color_list_map c
        else
          match firstOwnerFrom n gps c with
          | some j => some j
          | none => st.color_list_map c := by
  intro gps
  induction gps with
  | nil =>
    intro n st c
    by_cases h : c ∈ st.all_target_colors <;> simp [h, firstOwnerFrom]
  | cons g rest ih =>
    intro n st c
    simp only [List.enumFrom_cons, List.foldl_cons]
    rw [ih]
    simp only [foldl_processColor_targets, foldl_processColor_map, firstOwnerFrom]
    by_cases hA : c ∈ st.all_target_colors
    · simp [hA]
    · by_cases hg : c ∈ g <;> simp [hA, hg]

/-- Warning count after the whole scan: each color warns once per
occurrence beyond its first. -/
theorem registryScan_warnings :
    ∀ (gps : List (List Color)) (n : Nat) (st : RegistryState) (c : Color),
      ((List.enumFrom n gps).foldl
            (fun st p => p.2.foldl (processColor p.1) st) st).warnings.count c +
          (if c ∉ st.all_target_colors ∧ c ∈ gps.flatten then 1 else 0) =
        st.warnings.count c + gps.flatten.count c := by
  intro gps
  induction gps with
  | nil => intro n st c; simp
  | cons g rest ih =>
    intro n st c
    simp only [List.enumFrom_cons, List.foldl_cons, List.flatten_cons,
      List.count_append]
    have hih := ih (n + 1) (g.foldl (processColor n) st) c
    simp only [foldl_processColor_targets] at hih
    have hw := foldl_processColor_warnings n g st c
    by_cases hA : c ∈ st.all_target_colors <;>
      by_cases hg : c ∈ g <;>
        by_cases hr : c ∈ rest.flatten <;>
          simp [hA, hg, hr, List.mem_append] at hih hw ⊢ <;> omega

/-- The built registry maps every color to the index of the first group
containing it (and to `none` if no group does). -/
theorem buildRegistry_map (groups : List (List Color)) (c : Color) :
    (buildRegistry groups).color_list_map c = firstOwnerFrom 0 groups c := by
  have h := registryScan_map groups 0 initRegistryState c
  rw [buildRegistry, h]
  simp only [initRegistryState, List.not_mem_nil, if_false]
  cases firstOwnerFrom 0 groups c <;> rfl

/-- The built warning list holds one entry per occurrence of a color
beyond its first occurrence. -/
theorem buildRegistry_warnings (groups : List (List Color)) (c : Color) :
    (buildRegistry groups).warnings.count c +
        (if c ∈ groups.flatten then 1 else 0) =
      groups.flatten.count c := by
  have h := registryScan_warnings groups 0 initRegistryState c
  rw [buildRegistry]
  simpa [initRegistryState] using h

/-- Characterisation of `firstOwnerFrom`: a returned index points at a
group containing the color, with no earlier group containing it. -/
theorem firstOwnerFrom_spec :
    ∀ (gps : List (List Color)) (n : Nat) (c : Color) (j : Nat),
      firstOwnerFrom n gps c = some j →
        n ≤ j ∧ j - n < gps.length ∧ c ∈ gps.getD (j - n) [] ∧
          ∀ m, m < j - n → c ∉ gps.getD m [] := by
  intro gps
  induction gps with
  | nil => intro n c j h; simp [firstOwnerFrom] at h
  | cons g rest ih =>
    intro n c j h
    rw [firstOwnerFrom] at h
    by_cases hg : c ∈ g
    · rw [if_pos hg] at h
      cases h
      refine ⟨Nat.le_refl _, ?_, ?_, ?_⟩ <;> simp [hg]
    · rw [if_neg hg] at h
      obtain ⟨h1, h2, h3, h4⟩ := ih (n + 1) c j h
      have hjn : j - n = (j - (n + 1)) + 1 := by omega
      refine ⟨by omega, by simp; omega, ?_, ?_⟩
      · rw [hjn]; simpa using h3
      · intro m hm
        match m with
        | 0 => simpa using hg
        | m + 1 =>
          have : m < j - (n + 1) := by omega
          simpa using h4 m this
/-- `firstOwnerFrom` finds an owner exactly for the colors occurring in
some group. -/
theorem firstOwnerFrom_none :
    ∀ (gps : List (List Color)) (n : Nat) (c : Color),
      (firstOwnerFrom n gps c = none ↔ c ∉ gps.flatten) := by
  intro gps
  induction gps with
  | nil => intro n c; simp [firstOwnerFrom]
  | cons g rest ih =>
    intro n c
    rw [firstOwnerFrom]
    by_cases hg : c ∈ g <;> simp [hg, ih, List.mem_append]

end ColorCycling

namespace ColorCycling

/-! ## Frame-map lemmas (lines 158-165) -/

/-- Membership in an enumeration determines position and value. -/
theorem mem_enumFrom_getD {α : Type} [Inhabited α] (l : List α) (n : Nat)
    (q : Nat × α) (hq : q ∈ List.enumFrom n l) :
    n ≤ q.1 ∧ q.1 - n < l.length ∧ l.getD (q.1 - n) default = q.2 := by
  obtain ⟨i, x⟩ := q
  rw [List.mk_mem_enumFrom_iff_le_and_getElem?_sub] at hq
  obtain ⟨h1, h2⟩ := hq
  rw [List.getElem?_eq_some_iff] at h2
  obtain ⟨h3, h4⟩ := h2
  exact ⟨h1, h3, by rw [List.getD_eq_getElem _ _ h3, h4]⟩

/-- The value of an enumerated pair belongs to the underlying list. -/
theorem mem_enumFrom_snd {α : Type} [Inhabited α] (l : List α) (n : Nat)
    (q : Nat × α) (hq : q ∈ List.enumFrom n l) : q.2 ∈ l := by
  obtain ⟨-, h2, h3⟩ := mem_enumFrom_getD l n q hq
  rw [← h3, List.getD_eq_getElem _ _ h2]
  exact List.getElem_mem h2

/-- Rotation at frame index 0 is a no-op on in-range positions. -/
theorem rotate_zero (g : List Color) (i : Nat) (hi : i < g.length) :
    rotate g i 0 = g.getD i default := by
  unfold rotate
  rw [Int.add_zero, Int.emod_eq_of_lt (Int.natCast_nonneg i) (by exact_mod_cast hi),
    Int.toNat_natCast]

/-- Rotation is periodic in the frame index modulo the group length. -/
theorem rotate_period (g : List Color) (i : Nat) (k N : Int)
    (hdvd : (g.length : Int) ∣ N) :
    rotate g i (k + N) = rotate g i k := by
  obtain ⟨t, ht⟩ := hdvd
  unfold rotate
  rw [ht, show (i : Int) + (k + (g.length : Int) * t) =
    ((i : Int) + k) + (g.length : Int) * t by ring, Int.add_mul_emod_self_left]

/-- A group whose index the registry does not assign to `c` never
touches the table entry of `c`. -/
theorem foldl_applyStep_ne (r : Registry) (k : Int) (li : Nat) (g : List Color)
    (c : Color) (hne : r c ≠ some li) :
    ∀ (pairs : List (Nat × Color)) (t : FrameMap),
      (pairs.foldl (applyStep r k li g) t) c = t c := by
  intro pairs
  induction pairs with
  | nil => intro t; rfl
  | cons q rest ih =>
    intro t
    rw [List.foldl_cons, ih]
    unfold applyStep
    by_cases hq : r q.2 = some li
    · rw [if_pos hq]
      have hc : ¬c = q.2 := fun h => hne (h ▸ hq)
      simp [hc]
    · rw [if_neg hq]

/-- Table lookup at `c` after scanning one group whose index the
registry does assign to `c`: the fold tracks the group-entry fold. -/
theorem foldl_applyStep_eq (r : Registry) (k : Int) (li : Nat) (g : List Color)
    (c : Color) (z : Option Color) (hc : r c = some li) :
    ∀ (pairs : List (Nat × Color)) (t : FrameMap) (a : Option Color),
      (a = none → t c = z) →
      (∀ v, a = some v → t c = some v) →
      (pairs.foldl (applyStep r k li g) t) c =
        match pairs.foldl (entryStep g k c) a with
        | some v => some v
        | none => z := by
  intro pairs
  induction pairs with
  | nil =>
    intro t a ha0 ha
    cases h : a with
    | none => simp [ha0 h]
    | some v => simp [ha v h]
  | cons q rest ih =>
    intro t a ha0 ha
    rw [List.foldl_cons, List.foldl_cons]
    have hstep : (applyStep r k li g t q) c =
        if q.2 = c then some (rotate g q.1 k) else t c := by
      unfold applyStep
      by_cases hq : q.2 = c
      · rw [if_pos (show r q.2 = some li by rw [hq]; exact hc)]
        show (if c = q.2 then some (rotate g q.1 k) else t c) = _
        rw [if_pos hq.symm, if_pos hq]
      · rw [if_neg hq]
        by_cases hrq : r q.2 = some li
        · rw [if_pos hrq]
          show (if c = q.2 then some (rotate g q.1 k) else t c) = t c
          rw [if_neg (fun h => hq h.symm)]
        · rw [if_neg hrq]
    refine ih _ _ ?_ ?_
    · intro h0
      unfold entryStep at h0
      by_cases hq : q.2 = c
      · rw [if_pos hq] at h0; exact absurd h0 (by simp)
      · rw [if_neg hq] at h0
        rw [hstep, if_neg hq]
        exact ha0 h0
    · intro v hv
      unfold entryStep at hv
      by_cases hq : q.2 = c
      · rw [if_pos hq] at hv
        rw [hstep, if_pos hq]
        exact hv
      · rw [if_neg hq] at hv
        rw [hstep, if_neg hq]
        exact ha v hv

/-- The group-entry fold ignores positions whose color is not `c`. -/
theorem foldl_entryStep_notmem (g : List Color) (k : Int) (c : Color) :
    ∀ (pairs : List (Nat × Color)) (a : Option Color),
      (∀ q ∈ pairs, q.2 ≠ c) → pairs.foldl (entryStep g k c) a = a := by
  intro pairs
  induction pairs with
  | nil => intro a _; rfl
  | cons q rest ih =>
    intro a h
    rw [List.foldl_cons]
    have h1 : entryStep g k c a q = a := by
      unfold entryStep
      rw [if_neg (h q (List.mem_cons_self q rest))]
    rw [h1]
    exact ih a fun q' hq' => h q' (List.mem_cons_of_mem q hq')

/-- Once `c` has occurred (or the accumulator is set), the group-entry
fold yields a value. -/
theorem foldl_entryStep_isSome (g : List Color) (k : Int) (c : Color) :
    ∀ (pairs : List (Nat × Color)) (a : Option Color),
      (c ∈ pairs.map Prod.snd ∨ a.isSome) →
      (pairs.foldl (entryStep g k c) a).isSome := by
  intro pairs
  induction pairs with
  | nil =>
    intro a h
    rcases h with h | h
    · simp at h
    · exact h
  | cons q rest ih =>
    intro a h
    rw [List.foldl_cons]
    refine ih _ ?_
    unfold entryStep
    by_cases hq : q.2 = c
    · right; rw [if_pos hq]; rfl
    · rcases h with h | h
      · rw [List.map_cons, List.mem_cons] at h
        rcases h with h | h
        · exact absurd h.symm hq
        · exact Or.inl h
      · right; rw [if_neg hq]; exact h

/-- At frame index 0 the group-entry fold can only record the color
itself. -/
theorem foldl_entryStep_zero (g : List Color) (c : Color) :
    ∀ (pairs : List (Nat × Color)) (a : Option Color),
      (∀ q ∈ pairs, q.2 = c → rotate g q.1 0 = c) →
      (a = none ∨ a = some c) →
      (pairs.foldl (entryStep g 0 c) a = none ∨
        pairs.foldl (entryStep g 0 c) a = some c) := by
  intro pairs
  induction pairs with
  | nil => intro a _ ha; exact ha
  | cons q rest ih =>
    intro a hrot ha
    rw [List.foldl_cons]
    refine ih _ (fun q' hq' => hrot q' (List.mem_cons_of_mem q hq')) ?_
    unfold entryStep
    by_cases hq : q.2 = c
    · right
      rw [if_pos hq, hrot q (List.mem_cons_self q rest) hq]
    · rw [if_neg hq]; exact ha

/-- The group entry of a color occurring in the group is defined. -/
theorem groupEntry_isSome (g : List Color) (k : Int) (c : Color) (hc : c ∈ g) :
    (groupEntry g k c).isSome := by
  rw [groupEntry]
  refine foldl_entryStep_isSome g k c _ none (Or.inl ?_)
  rw [List.enumFrom_map_snd]
  exact hc

/-- The group entry at frame index 0 of an occurring color is the color
itself. -/
theorem groupEntry_zero (g : List Color) (c : Color) (hc : c ∈ g) :
    groupEntry g 0 c = some c := by
  have h1 : groupEntry g 0 c = none ∨ groupEntry g 0 c = some c := by
    rw [groupEntry]
    refine foldl_entryStep_zero g c _ none ?_ (Or.inl rfl)
    intro q hq hqc
    obtain ⟨-, h2, h3⟩ := mem_enumFrom_getD g 0 q hq
    rw [Nat.sub_zero] at h2 h3
    rw [rotate_zero g q.1 h2, h3, hqc]
  have h2 := groupEntry_isSome g 0 c hc
  rcases h1 with h | h
  · rw [h] at h2; simp at h2
  · exact h

/-- The group entry of a color is the rotation of its last occurrence. -/
theorem groupEntry_last (g : List Color) (k : Int) (c : Color) (j : Nat)
    (hj : j < g.length) (hcj : g.getD j default = c)
    (hlast : ∀ m, j < m → m < g.length → g.getD m default ≠ c) :
    groupEntry g k c = some (rotate g j k) := by
  rw [groupEntry]
  have hlen : (g.take j).length = j := by
    rw [List.length_take]; omega
  have hdrop : g.drop j = c :: g.drop (j + 1) := by
    rw [List.drop_eq_getElem_cons hj]
    congr 1
    rw [← List.getD_eq_getElem g default hj, hcj]
  have e1 : List.enumFrom 0 g =
      List.enumFrom 0 (g.take j) ++ List.enumFrom j (c :: g.drop (j + 1)) := by
    calc List.enumFrom 0 g
        = List.enumFrom 0 (g.take j ++ g.drop j) := by
          rw [List.take_append_drop]
      _ = List.enumFrom 0 (g.take j) ++
            List.enumFrom (0 + (g.take j).length) (g.drop j) :=
          List.enumFrom_append _ _ _
      _ = _ := by rw [hlen, hdrop, Nat.zero_add]
  rw [e1, List.foldl_append, List.enumFrom_cons, List.foldl_cons]
  have e2 : ∀ a, entryStep g k c a (j, c) = some (rotate g j k) := by
    intro a; unfold entryStep; simp
  rw [e2]
  apply foldl_entryStep_notmem
  intro q hq
  obtain ⟨h1, h2, h3⟩ := mem_enumFrom_getD _ _ _ hq
  rw [List.length_drop] at h2
  have h4 : (g.drop (j + 1)).getD (q.1 - (j + 1)) default = g.getD q.1 default := by
    rw [List.getD_eq_getElem?_getD, List.getD_eq_getElem?_getD, List.getElem?_drop,
      show j + 1 + (q.1 - (j + 1)) = q.1 by omega]
  rw [h4] at h3
  rw [← h3]
  exact hlast q.1 (by omega) (by omega)

end ColorCycling

namespace ColorCycling

/-- A color the registry owns by no group is never entered in the table. -/
theorem frameScan_lookup_none (r : Registry) (k : Int) (c : Color)
    (hc : r c = none) :
    ∀ (gps : List (List Color)) (n : Nat) (t : FrameMap),
      ((List.enumFrom n gps).foldl (fun t p => applyGroup r k p.1 p.2 t) t) c
        = t c := by
  intro gps
  induction gps with
  | nil => intro n t; rfl
  | cons g rest ih =>
    intro n t
    simp only [List.enumFrom_cons, List.foldl_cons]
    rw [ih]
    rw [applyGroup]
    exact foldl_applyStep_ne r k n g c (by rw [hc]; exact fun h => Option.noConfusion h) _ t

/-- Table lookup at `c` over the scan of the groups listed from
position `n`: only the group whose index the registry assigns to `c`
determines the entry, via its own group entry. -/
theorem frameScan_lookup (r : Registry) (k : Int) (c : Color) (gi : Nat)
    (hc : r c = some gi) :
    ∀ (gps : List (List Color)) (n : Nat) (t : FrameMap),
      ((List.enumFrom n gps).foldl (fun t p => applyGroup r k p.1 p.2 t) t) c =
        if n ≤ gi ∧ gi < n + gps.length then
          match groupEntry (gps.getD (gi - n) []) k c with
          | some v => some v
          | none => t c
        else t c := by
  intro gps
  induction gps with
  | nil =>
    intro n t
    simp only [List.enumFrom, List.foldl_nil, List.length_nil]
    rw [if_neg (by omega)]
  | cons g rest ih =>
    intro n t
    simp only [List.enumFrom_cons, List.foldl_cons, List.length_cons]
    rw [ih]
    by_cases hgi : gi = n
    · subst hgi
      rw [if_neg (by omega), if_pos (by omega)]
      have h1 : applyGroup r k gi g t c =
          match groupEntry g k c with
          | some v => some v
          | none => t c := by
        rw [applyGroup, groupEntry]
        exact foldl_applyStep_eq r k gi g c (t c) hc _ t none (fun _ => rfl)
          (fun v hv => Option.noConfusion hv)
      rw [Nat.sub_self]
      simpa using h1
    · have h2 : applyGroup r k n g t c = t c := by
        rw [applyGroup]
        exact foldl_applyStep_ne r k n g c
          (by rw [hc]; exact fun h => hgi (Option.some.inj h)) _ t
      by_cases hrange : n + 1 ≤ gi ∧ gi < n + 1 + rest.length
      · rw [if_pos hrange, if_pos (by omega)]
        have h3 : (g :: rest).getD (gi - n) [] = rest.getD (gi - (n + 1)) [] := by
          rw [show gi - n = (gi - (n + 1)) + 1 by omega, List.getD_cons_succ]
        rw [h3, h2]
      · rw [if_neg hrange, if_neg (by omega), h2]

/-- Master lookup for the substitution table (lines 158-165): the entry
for `c` is its owning group's entry, and is absent when the registry
assigns `c` no scanned group. -/
theorem buildFrameMap_lookup (groups : List (List Color)) (r : Registry)
    (k : Int) (c : Color) :
    buildFrameMap groups r k c =
      match r c with
      | none => none
      | some gi =>
        if gi < groups.length then groupEntry (groups.getD gi []) k c
        else none := by
  cases hc : r c with
  | none =>
    rw [buildFrameMap]
    exact frameScan_lookup_none r k c hc groups 0 _
  | some gi =>
    rw [buildFrameMap, frameScan_lookup r k c gi hc groups 0 _]
    simp only [Nat.zero_add, Nat.zero_le, true_and, Nat.sub_zero]
    by_cases h : gi < groups.length
    · rw [if_pos h, if_pos h]
      cases groupEntry (groups.getD gi []) k c <;> rfl
    · rw [if_neg h, if_neg h]

/-- Equation form of the master lookup for an owned color. -/
theorem buildFrameMap_lookup_some (groups : List (List Color)) (r : Registry)
    (k : Int) (c : Color) (gi : Nat) (hc : r c = some gi) :
    buildFrameMap groups r k c =
      if gi < groups.length then groupEntry (groups.getD gi []) k c
      else none := by
  rw [buildFrameMap_lookup, hc]

/-- Equation form of the master lookup for an unowned color. -/
theorem buildFrameMap_lookup_nokey (groups : List (List Color)) (r : Registry)
    (k : Int) (c : Color) (hc : r c = none) :
    buildFrameMap groups r k c = none := by
  rw [buildFrameMap_lookup, hc]

end ColorCycling

namespace ColorCycling

/-! ## Renderer lemmas (lines 169-173) -/

/-- One remap step rewrites exactly the visited position, substituting
the table entry of its current color. -/
theorem renderStep_getElem? (t : FrameMap) (buf : List Color) (i j : Nat) :
    (renderStep t buf i)[j]? =
      if i = j then (buf[j]?).map (fun p => (t p).getD p) else buf[j]? := by
  cases h : t (buf.getD i default) with
  | none =>
    have hr : renderStep t buf i = buf := by unfold renderStep; rw [h]
    rw [hr]
    by_cases hij : i = j
    · subst hij
      rw [if_pos rfl]
      by_cases hlen : i < buf.length
      · rw [List.getElem?_eq_getElem hlen]
        rw [List.getD_eq_getElem buf default hlen] at h
        simp [h]
      · rw [List.getElem?_eq_none (by omega)]
        rfl
    · rw [if_neg hij]
  | some v =>
    have hr : renderStep t buf i = buf.set i v := by unfold renderStep; rw [h]
    rw [hr, List.getElem?_set]
    by_cases hij : i = j
    · subst hij
      rw [if_pos rfl, if_pos rfl]
      by_cases hlen : i < buf.length
      · rw [if_pos hlen, List.getElem?_eq_getElem hlen]
        rw [List.getD_eq_getElem buf default hlen] at h
        simp [h]
      · rw [if_neg hlen, List.getElem?_eq_none (by omega)]
        rfl
    · rw [if_neg hij, if_neg hij]

/-- Pointwise description of the remap loop over `range n`: the
positions below `n` have been substituted once, the rest still hold
their original color. -/
theorem renderLoop_getElem? (t : FrameMap) (base : List Color) :
    ∀ (n j : Nat),
      ((List.range n).foldl (renderStep t) base)[j]? =
        if j < n then (base[j]?).map (fun p => (t p).getD p) else base[j]? := by
  intro n
  induction n with
  | zero => intro j; simp
  | succ n ih =>
    intro j
    rw [List.range_succ, List.foldl_append, List.foldl_cons, List.foldl_nil,
      renderStep_getElem?]
    by_cases hnj : n = j
    · subst hnj
      rw [if_pos rfl, ih, if_neg (by omega), if_pos (by omega)]
    · rw [if_neg hnj, ih]
      by_cases hj : j < n
      · rw [if_pos hj, if_pos (by omega)]
      · rw [if_neg hj, if_neg (by omega)]

/-- The remap loop is the pointwise substitution of the whole buffer:
each pixel is replaced by its table entry when present, else kept. -/
theorem renderFrame_eq_map (t : FrameMap) (base : List Color) :
    renderFrame t base = base.map (fun p => (t p).getD p) := by
  apply List.ext_getElem?
  intro j
  rw [renderFrame, renderLoop_getElem?, List.getElem?_map]
  by_cases hj : j < base.length
  · rw [if_pos hj]
  · rw [if_neg hj, List.getElem?_eq_none (by omega), Option.map_none']

/-! ## Cycle-length lemmas (lines 25-27, 141-146) -/

/-- `calculate_lcm` agrees with the mathematical least common multiple
on naturals (including the guarded zero cases). -/
theorem calculate_lcm_eq_lcm (a b : Nat) : calculate_lcm a b = Nat.lcm a b := by
  unfold calculate_lcm
  by_cases ha : a = 0
  · subst ha; simp [Nat.lcm]
  · by_cases hb : b = 0
    · subst hb; simp [Nat.lcm]
    · rw [if_pos ⟨ha, hb⟩]; rfl

/-- The seed of the pairwise LCM reduction divides its result. -/
theorem foldl_lcm_seed_dvd :
    ∀ (gs : List (List Color)) (seed : Nat),
      seed ∣ gs.foldl (fun n h => calculate_lcm n h.length) seed := by
  intro gs
  induction gs with
  | nil => intro seed; exact dvd_refl seed
  | cons g rest ih =>
    intro seed
    rw [List.foldl_cons, calculate_lcm_eq_lcm]
    exact dvd_trans (Nat.dvd_lcm_left seed g.length) (ih _)

/-- Every scanned group length divides the pairwise LCM reduction. -/
theorem foldl_lcm_mem_dvd :
    ∀ (gs : List (List Color)) (seed : Nat) (g : List Color), g ∈ gs →
      g.length ∣ gs.foldl (fun n h => calculate_lcm n h.length) seed := by
  intro gs
  induction gs with
  | nil => intro seed g h; simp at h
  | cons g0 rest ih =>
    intro seed g h
    rw [List.foldl_cons, calculate_lcm_eq_lcm]
    rcases List.mem_cons.mp h with h | h
    · subst h
      exact dvd_trans (Nat.dvd_lcm_right seed g.length) (foldl_lcm_seed_dvd rest _)
    · exact ih _ g h

/-- The pairwise LCM reduction divides every common multiple. -/
theorem foldl_lcm_dvd :
    ∀ (gs : List (List Color)) (seed m : Nat), seed ∣ m →
      (∀ g ∈ gs, g.length ∣ m) →
      gs.foldl (fun n h => calculate_lcm n h.length) seed ∣ m := by
  intro gs
  induction gs with
  | nil => intro seed m h _; exact h
  | cons g0 rest ih =>
    intro seed m h hall
    rw [List.foldl_cons, calculate_lcm_eq_lcm]
    exact ih _ m (Nat.lcm_dvd h (hall g0 (List.mem_cons_self g0 rest)))
      fun g hg => hall g (List.mem_cons_of_mem g0 hg)

/-- Every group length divides the computed frame count. -/
theorem num_frames_dvd (groups : List (List Color)) (g : List Color)
    (hg : g ∈ groups) : g.length ∣ num_frames groups := by
  cases groups with
  | nil => simp at hg
  | cons g0 rest =>
    rw [num_frames]
    rcases List.mem_cons.mp hg with h | h
    · subst h; exact foldl_lcm_seed_dvd rest g.length
    · exact foldl_lcm_mem_dvd rest g0.length g h

/-- The computed frame count divides every common multiple of the group
lengths. -/
theorem num_frames_min (groups : List (List Color)) (m : Nat)
    (hm : ∀ g ∈ groups, g.length ∣ m) : num_frames groups ∣ m := by
  cases groups with
  | nil => exact one_dvd m
  | cons g0 rest =>
    rw [num_frames]
    exact foldl_lcm_dvd rest g0.length m (hm g0 (List.mem_cons_self g0 rest))
      fun g hg => hm g (List.mem_cons_of_mem g0 hg)

/-! ## Orchestrator lemmas (lines 151-179) -/

/-- The frame loop never writes the base pixel buffer, and appends one
rendered frame per visited index, in visiting order. -/
theorem foldl_generateStep (groups : List (List Color)) (r : Registry) :
    ∀ (idxs : List Nat) (st : GenState),
      ((idxs.foldl (generateStep groups r) st).base_pixels = st.base_pixels ∧
        (idxs.foldl (generateStep groups r) st).frames =
          st.frames ++ idxs.map (fun (k : Nat) =>
            renderFrame (buildFrameMap groups r (k : Int)) st.base_pixels)) := by
  intro idxs
  induction idxs with
  | nil => intro st; exact ⟨rfl, by simp⟩
  | cons k rest ih =>
    intro st
    rw [List.foldl_cons]
    obtain ⟨h1, h2⟩ := ih (generateStep groups r st k)
    refine ⟨h1, ?_⟩
    rw [h2]
    simp [generateStep, List.append_assoc]

/-- The generated frame list, closed form. -/
theorem generateFrames_frames (base : List Color) (groups : List (List Color)) :
    (generateFrames base groups).frames =
      (List.range (num_frames groups)).map (fun (k : Nat) =>
        renderFrame
          (buildFrameMap groups (buildRegistry groups).color_list_map (k : Int))
          base) := by
  have h := (foldl_generateStep groups (buildRegistry groups).color_list_map
    (List.range (num_frames groups)) { base_pixels := base, frames := [] }).2
  simpa [generateFrames] using h

end ColorCycling

namespace ColorCycling

/-- A color occurring in some group has a first owning group. -/
theorem firstOwnerFrom_isSome (groups : List (List Color)) (c : Color)
    (hc : c ∈ groups.flatten) :
    ∃ gi, firstOwnerFrom 0 groups c = some gi := by
  cases hf : firstOwnerFrom 0 groups c with
  | none => exact absurd hc ((firstOwnerFrom_none groups 0 c).mp hf)
  | some gi => exact ⟨gi, rfl⟩

/-! ## Claims -/

/-- Claim C1 (Ownership exclusivity): a color `c` that appears in two or more
groups is owned by the first (lowest-index) group containing it, and for
every frame index the substitution table maps `c` exactly to the table
entry its owning group alone would produce (`groupEntry`); the
non-owning groups' positions for `c` contribute no table entry. -/
theorem ownership_exclusivity (groups : List (List Color)) (c : Color)
    (i j : Nat) (hij : i < j) (hj : j < groups.length)
    (hci : c ∈ groups.getD i []) (_hcj : c ∈ groups.getD j []) :
    ∃ gi, (buildRegistry groups).color_list_map c = some gi ∧ gi ≤ i ∧
      c ∈ groups.getD gi [] ∧ (∀ m, m < gi → c ∉ groups.getD m []) ∧
      ∀ k : Int,
        buildFrameMap groups (buildRegistry groups).color_list_map k c =
          groupEntry (groups.getD gi []) k c := by
  have hilen : i < groups.length := lt_trans hij hj
  have hflat : c ∈ groups.flatten := by
    rw [List.mem_flatten]
    refine ⟨groups.getD i [], ?_, hci⟩
    rw [List.getD_eq_getElem _ _ hilen]
    exact List.getElem_mem hilen
  obtain ⟨gi, hgi⟩ := firstOwnerFrom_isSome groups c hflat
  obtain ⟨-, hlen, hmem, hfirst⟩ := firstOwnerFrom_spec groups 0 c gi hgi
  rw [Nat.sub_zero] at hlen hmem
  have hfirst0 : ∀ m, m < gi → c ∉ groups.getD m [] := by
    intro m hm
    exact hfirst m (by omega)
  have hle : gi ≤ i := by
    by_contra hgt
    exact hfirst0 i (by omega) hci
  refine ⟨gi, ?_, hle, hmem, hfirst0, ?_⟩
  · rw [buildRegistry_map]
    exact hgi
  · intro k
    rw [buildFrameMap_lookup_some groups _ k c gi (by rw [buildRegistry_map]; exact hgi),
      if_pos hlen]

/-- Witness for C1: groups `[[R,G],[G,B]]` with the duplicated color G; at
frame index 1, G maps to R (group 0's rotation), not to B. -/
theorem ownership_exclusivity_witness :
    ((0 < 1 ∧ 1 < ([[colR, colG], [colG, colB]] : List (List Color)).length ∧
        colG ∈ ([[colR, colG], [colG, colB]] : List (List Color)).getD 0 [] ∧
        colG ∈ ([[colR, colG], [colG, colB]] : List (List Color)).getD 1 []) ∧
      (∃ gi, (buildRegistry [[colR, colG], [colG, colB]]).color_list_map colG
              = some gi ∧
          gi ≤ 0 ∧ colG ∈ ([[colR, colG], [colG, colB]] : List (List Color)).getD gi [] ∧
          (∀ m, m < gi →
            colG ∉ ([[colR, colG], [colG, colB]] : List (List Color)).getD m []) ∧
          ∀ k : Int,
            buildFrameMap [[colR, colG], [colG, colB]]
                (buildRegistry [[colR, colG], [colG, colB]]).color_list_map k colG =
              groupEntry (([[colR, colG], [colG, colB]] : List (List Color)).getD gi [])
                k colG) ∧
      buildFrameMap [[colR, colG], [colG, colB]]
          (buildRegistry [[colR, colG], [colG, colB]]).color_list_map 1 colG =
        some colR) :=
  ⟨by decide,
   ownership_exclusivity [[colR, colG], [colG, colB]] colG 0 1
     (by decide) (by decide) (by decide) (by decide),
   by decide⟩

/-- Claim C2 (Cycle length): the frame count is the least common multiple of
the group lengths, computed by pairwise reduction with
`calculate_lcm`; with zero groups it is 1; and it satisfies the
concrete examples of the specification. -/
theorem cycle_length_lcm (gs : List (List Color)) (a b c d e : List Color)
    (ha : a.length = 2) (hb : b.length = 3) (hc : c.length = 4)
    (hd : d.length = 6) (he : e.length = 5) :
    num_frames [a, b] = 6 ∧ num_frames [c, d] = 12 ∧ num_frames [e] = 5 ∧
    num_frames ([] : List (List Color)) = 1 ∧
    (∀ x y : Nat, calculate_lcm x y = Nat.lcm x y) ∧
    (∀ g ∈ gs, g.length ∣ num_frames gs) ∧
    (∀ m : Nat, (∀ g ∈ gs, g.length ∣ m) → num_frames gs ∣ m) := by
  refine ⟨?_, ?_, ?_, rfl, calculate_lcm_eq_lcm,
    fun g hg => num_frames_dvd gs g hg, fun m hm => num_frames_min gs m hm⟩
  · simp only [num_frames, List.foldl_cons, List.foldl_nil, ha, hb]
    decide
  · simp only [num_frames, List.foldl_cons, List.foldl_nil, hc, hd]
    decide
  · simp only [num_frames, List.foldl_nil, he]

/-- Witness for C2: concrete groups of lengths 2, 3, 4, 6 and 5. -/
theorem cycle_length_lcm_witness :
    (([colR, colG] : List Color).length = 2 ∧
      ([colR, colG, colB] : List Color).length = 3 ∧
      ([colR, colG, colB, colY] : List Color).length = 4 ∧
      ([colR, colG, colB, colY, colW, ⟨1, 2, 3⟩] : List Color).length = 6 ∧
      ([colR, colG, colB, colY, colW] : List Color).length = 5) ∧
    (num_frames [[colR, colG], [colR, colG, colB]] = 6 ∧
      num_frames [[colR, colG, colB, colY],
        [colR, colG, colB, colY, colW, ⟨1, 2, 3⟩]] = 12 ∧
      num_frames [[colR, colG, colB, colY, colW]] = 5 ∧
      num_frames ([] : List (List Color)) = 1 ∧
      (∀ x y : Nat, calculate_lcm x y = Nat.lcm x y) ∧
      (∀ g ∈ ([[colR, colG], [colR, colG, colB]] : List (List Color)),
        g.length ∣ num_frames [[colR, colG], [colR, colG, colB]]) ∧
      (∀ m : Nat,
        (∀ g ∈ ([[colR, colG], [colR, colG, colB]] : List (List Color)),
          g.length ∣ m) →
        num_frames [[colR, colG], [colR, colG, colB]] ∣ m)) :=
  ⟨by decide,
   cycle_length_lcm [[colR, colG], [colR, colG, colB]]
     [colR, colG] [colR, colG, colB] [colR, colG, colB, colY]
     [colR, colG, colB, colY, colW, ⟨1, 2, 3⟩] [colR, colG, colB, colY, colW]
     (by decide) (by decide) (by decide) (by decide) (by decide)⟩

/-- Claim C3 (Identity at frame 0): for well-formed groups, the substitution
table built for frame index 0 maps every targeted (owned) color to
itself. -/
theorem identity_at_frame_zero (groups : List (List Color))
    (_hvalid : ∀ g ∈ groups, 2 ≤ g.length) (c : Color)
    (hc : c ∈ groups.flatten) :
    buildFrameMap groups (buildRegistry groups).color_list_map 0 c = some c := by
  obtain ⟨gi, hgi⟩ := firstOwnerFrom_isSome groups c hc
  obtain ⟨-, hlen, hmem, -⟩ := firstOwnerFrom_spec groups 0 c gi hgi
  rw [Nat.sub_zero] at hlen hmem
  rw [buildFrameMap_lookup_some groups _ 0 c gi (by rw [buildRegistry_map]; exact hgi),
    if_pos hlen, groupEntry_zero _ c hmem]

/-- Witness for C3: two groups, checked on the duplicated color G. -/
theorem identity_at_frame_zero_witness :
    ((∀ g ∈ ([[colR, colG], [colG, colB]] : List (List Color)), 2 ≤ g.length) ∧
      colG ∈ ([[colR, colG], [colG, colB]] : List (List Color)).flatten) ∧
    buildFrameMap [[colR, colG], [colG, colB]]
        (buildRegistry [[colR, colG], [colG, colB]]).color_list_map 0 colG =
      some colG :=
  ⟨⟨by decide, by decide⟩,
   identity_at_frame_zero [[colR, colG], [colG, colB]] (by decide) colG (by decide)⟩

/-- Claim C4 (Full-cycle periodicity): for every integer frame index `k`, the
substitution table built for `k + num_frames` equals the table built for
`k`. -/
theorem full_cycle_periodicity (groups : List (List Color)) (k : Int) :
    buildFrameMap groups (buildRegistry groups).color_list_map
        (k + (num_frames groups : Int)) =
      buildFrameMap groups (buildRegistry groups).color_list_map k := by
  unfold buildFrameMap
  apply List.foldl_ext
  intro t p hp
  have hdvd : ((p.2.length : Int)) ∣ ((num_frames groups : Nat) : Int) :=
    Int.natCast_dvd_natCast.mpr
      (num_frames_dvd groups p.2 (mem_enumFrom_snd groups 0 p hp))
  unfold applyGroup
  apply List.foldl_ext
  intro t2 q _
  unfold applyStep
  rw [rotate_period p.2 q.1 k _ hdvd]

/-- Claim C5 (Registry first-claim-wins): every color in any group is owned,
ownership points at the first (lowest-index) containing group, and each
re-occurrence of an already-claimed color adds one (non-fatal) warning
while the scan continues. -/
theorem registry_first_claim_wins (groups : List (List Color)) (c : Color) :
    ((buildRegistry groups).color_list_map c ≠ none ↔ c ∈ groups.flatten) ∧
    (∀ gi, (buildRegistry groups).color_list_map c = some gi →
      gi < groups.length ∧ c ∈ groups.getD gi [] ∧
        ∀ m, m < gi → c ∉ groups.getD m []) ∧
    (buildRegistry groups).warnings.count c +
        (if c ∈ groups.flatten then 1 else 0) =
      groups.flatten.count c := by
  refine ⟨?_, ?_, buildRegistry_warnings groups c⟩
  · rw [buildRegistry_map]
    constructor
    · intro h
      by_contra hnot
      exact h ((firstOwnerFrom_none groups 0 c).mpr hnot)
    · intro h hnone
      exact absurd h ((firstOwnerFrom_none groups 0 c).mp hnone)
  · intro gi h
    rw [buildRegistry_map] at h
    obtain ⟨-, hlen, hmem, hfirst⟩ := firstOwnerFrom_spec groups 0 c gi h
    rw [Nat.sub_zero] at hlen hmem
    exact ⟨hlen, hmem, fun m hm => hfirst m (by omega)⟩

/-- Witness for C5: the duplicated color G in `[[R,G],[G,B,G]]` is owned by
group 0 and warned twice. -/
theorem registry_first_claim_wins_witness :
    (((buildRegistry [[colR, colG], [colG, colB, colG]]).color_list_map colG ≠
          none ↔
        colG ∈ ([[colR, colG], [colG, colB, colG]] : List (List Color)).flatten) ∧
      (∀ gi,
        (buildRegistry [[colR, colG], [colG, colB, colG]]).color_list_map colG =
            some gi →
          gi < ([[colR, colG], [colG, colB, colG]] : List (List Color)).length ∧
            colG ∈ ([[colR, colG], [colG, colB, colG]] : List (List Color)).getD gi [] ∧
            ∀ m, m < gi →
              colG ∉ ([[colR, colG], [colG, colB, colG]] : List (List Color)).getD m []) ∧
      (buildRegistry [[colR, colG], [colG, colB, colG]]).warnings.count colG +
          (if colG ∈ ([[colR, colG], [colG, colB, colG]] : List (List Color)).flatten
            then 1 else 0) =
        ([[colR, colG], [colG, colB, colG]] : List (List Color)).flatten.count colG) ∧
    ((buildRegistry [[colR, colG], [colG, colB, colG]]).color_list_map colG =
        some 0 ∧
      (buildRegistry [[colR, colG], [colG, colB, colG]]).warnings.count colG = 2) :=
  ⟨registry_first_claim_wins [[colR, colG], [colG, colB, colG]] colG, by decide⟩

/-- Claim C6 (Renderer pixel rule and untouched pixels): each output pixel is
the table entry of the source pixel's color when that color is a key,
and the unchanged source pixel otherwise; hence a pixel whose color
appears in no group is identical in every rendered frame of the cycle. -/
theorem renderer_pixel_rule (t : FrameMap) (pixels : List Color)
    (groups : List (List Color)) (i : Nat) (hi : i < pixels.length) :
    ((renderFrame t pixels).length = pixels.length ∧
      (renderFrame t pixels).getD i default =
        (match t (pixels.getD i default) with
         | some v => v
         | none => pixels.getD i default) ∧
      (pixels.getD i default ∉ groups.flatten →
        ∀ f ∈ (generateFrames pixels groups).frames,
          f.getD i default = pixels.getD i default)) := by
  have hmain : ∀ (t2 : FrameMap),
      (renderFrame t2 pixels).getD i default =
        match t2 (pixels.getD i default) with
        | some v => v
        | none => pixels.getD i default := by
    intro t2
    rw [renderFrame_eq_map,
      List.getD_eq_getElem _ _ (by rw [List.length_map]; exact hi),
      List.getElem_map, ← List.getD_eq_getElem pixels default hi]
    cases t2 (pixels.getD i default) <;> rfl
  refine ⟨by rw [renderFrame_eq_map, List.length_map], hmain t, ?_⟩
  intro hnot f hf
  rw [generateFrames_frames, List.mem_map] at hf
  obtain ⟨k, -, hk⟩ := hf
  rw [← hk, hmain]
  rw [buildFrameMap_lookup_nokey groups _ (k : Int) _
    (by rw [buildRegistry_map]; exact (firstOwnerFrom_none groups 0 _).mpr hnot)]

/-- Witness for C6: a two-pixel raster whose second pixel (gray) is in no
group stays gray in both frames; the rule is checked at index 0. -/
theorem renderer_pixel_rule_witness :
    (0 < ([colR, colW] : List Color).length ∧
      ((renderFrame
            (buildFrameMap [[colR, colG]]
              (buildRegistry [[colR, colG]]).color_list_map 1)
            [colR, colW]).length = ([colR, colW] : List Color).length ∧
        (renderFrame
              (buildFrameMap [[colR, colG]]
                (buildRegistry [[colR, colG]]).color_list_map 1)
              [colR, colW]).getD 0 default =
          (match
              buildFrameMap [[colR, colG]]
                (buildRegistry [[colR, colG]]).color_list_map 1
                (([colR, colW] : List Color).getD 0 default) with
           | some v => v
           | none => ([colR, colW] : List Color).getD 0 default) ∧
        (([colR, colW] : List Color).getD 0 default ∉
            ([[colR, colG]] : List (List Color)).flatten →
          ∀ f ∈ (generateFrames [colR, colW] [[colR, colG]]).frames,
            f.getD 0 default = ([colR, colW] : List Color).getD 0 default)) ∧
      ∀ f ∈ (generateFrames [colR, colW] [[colR, colG]]).frames,
        f.getD 1 default = colW) :=
  ⟨by decide,
   renderer_pixel_rule
     (buildFrameMap [[colR, colG]]
       (buildRegistry [[colR, colG]]).color_list_map 1)
     [colR, colW] [[colR, colG]] 0 (by decide),
   by decide⟩

/-- Claim C7 (Table totality on targeted colors): for every frame index, the
substitution table has an entry exactly for the colors appearing in at
least one group; colors outside every group are absent. -/
theorem table_key_totality (groups : List (List Color)) (k : Int) (c : Color) :
    (buildFrameMap groups (buildRegistry groups).color_list_map k c ≠ none ↔
      c ∈ groups.flatten) := by
  constructor
  · intro h
    by_contra hnot
    exact h (buildFrameMap_lookup_nokey groups _ k c
      (by rw [buildRegistry_map]; exact (firstOwnerFrom_none groups 0 c).mpr hnot))
  · intro h
    obtain ⟨gi, hgi⟩ := firstOwnerFrom_isSome groups c h
    obtain ⟨-, hlen, hmem, -⟩ := firstOwnerFrom_spec groups 0 c gi hgi
    rw [Nat.sub_zero] at hlen hmem
    rw [buildFrameMap_lookup_some groups _ k c gi
      (by rw [buildRegistry_map]; exact hgi), if_pos hlen]
    have hs := groupEntry_isSome (groups.getD gi []) k c hmem
    exact Option.isSome_iff_ne_none.mp hs

/-- Claim C8 (Sequence length and ordering): the produced frame sequence has
length `num_frames` and its `i`-th element is the rendering of the
substitution table for frame index `i`. -/
theorem frame_sequence_order (pixels : List Color) (groups : List (List Color)) :
    ((generateFrames pixels groups).frames.length = num_frames groups ∧
      ∀ i, i < num_frames groups →
        (generateFrames pixels groups).frames.getD i [] =
          renderFrame
            (buildFrameMap groups (buildRegistry groups).color_list_map (i : Int))
            pixels) := by
  rw [generateFrames_frames]
  constructor
  · rw [List.length_map, List.length_range]
  · intro i hi
    rw [List.getD_eq_getElem _ _
      (by rw [List.length_map, List.length_range]; exact hi),
      List.getElem_map, List.getElem_range]

/-- Witness for C8: one group of length 3 over a two-pixel raster yields 3
frames; frame 1 is the rendering of table 1. -/
theorem frame_sequence_order_witness :
    ((generateFrames [colR, colB] [[colR, colG, colB]]).frames.length =
        num_frames [[colR, colG, colB]] ∧
      ∀ i, i < num_frames [[colR, colG, colB]] →
        (generateFrames [colR, colB] [[colR, colG, colB]]).frames.getD i [] =
          renderFrame
            (buildFrameMap [[colR, colG, colB]]
              (buildRegistry [[colR, colG, colB]]).color_list_map (i : Int))
            [colR, colB]) ∧
    ((generateFrames [colR, colB] [[colR, colG, colB]]).frames.length = 3 ∧
      (generateFrames [colR, colB] [[colR, colG, colB]]).frames.getD 1 [] =
        [colG, colR]) :=
  ⟨frame_sequence_order [colR, colB] [[colR, colG, colB]], by decide⟩

/-- Claim C9 (Source raster never mutated): after generating all frames, the
base pixel buffer of the run state is the original source buffer; every
frame was produced into a fresh copy. -/
theorem source_raster_immutable (pixels : List Color)
    (groups : List (List Color)) (_hvalid : ∀ g ∈ groups, 2 ≤ g.length) :
    (generateFrames pixels groups).base_pixels = pixels := by
  rw [generateFrames]
  exact (foldl_generateStep groups (buildRegistry groups).color_list_map
    (List.range (num_frames groups)) { base_pixels := pixels, frames := [] }).1

/-- Witness for C9: a concrete run leaves the source buffer intact. -/
theorem source_raster_immutable_witness :
    (∀ g ∈ ([[colR, colG]] : List (List Color)), 2 ≤ g.length) ∧
    (generateFrames [colR, colW] [[colR, colG]]).base_pixels = [colR, colW] :=
  ⟨by decide,
   source_raster_immutable [colR, colW] [[colR, colG]] (by decide)⟩

/-- Claim C10 (Last occurrence wins): when a color occurs at several positions
of its owning group, the substitution table entry at every frame index
is the rotation of its last (highest-index) occurrence, because later
positions overwrite earlier ones during the build loop. -/
theorem last_occurrence_wins (groups : List (List Color)) (c : Color) (gi : Nat)
    (hown : (buildRegistry groups).color_list_map c = some gi)
    (j : Nat) (hj : j < (groups.getD gi []).length)
    (hcj : (groups.getD gi []).getD j default = c)
    (hlast : ∀ m, j < m → m < (groups.getD gi []).length →
      (groups.getD gi []).getD m default ≠ c)
    (i : Nat) (_hij : i < j) (_hci : (groups.getD gi []).getD i default = c)
    (k : Int) :
    buildFrameMap groups (buildRegistry groups).color_list_map k c =
      some (rotate (groups.getD gi []) j k) := by
  have hlen : gi < groups.length := by
    rw [buildRegistry_map] at hown
    obtain ⟨-, h2, -, -⟩ := firstOwnerFrom_spec groups 0 c gi hown
    simpa using h2
  rw [buildFrameMap_lookup_some groups _ k c gi hown, if_pos hlen,
    groupEntry_last _ k c j hj hcj hlast]

/-- Witness for C10: owning group `[G,R,G]` with G at positions 0 and 2; at
frame index 1 the entry for G is the rotation of position 2 (G again),
not of position 0 (which would give R). -/
theorem last_occurrence_wins_witness :
    (((buildRegistry [[colG, colR, colG]]).color_list_map colG = some 0 ∧
        2 < (([[colG, colR, colG]] : List (List Color)).getD 0 []).length ∧
        (([[colG, colR, colG]] : List (List Color)).getD 0 []).getD 2 default =
          colG ∧
        0 < 2 ∧
        (([[colG, colR, colG]] : List (List Color)).getD 0 []).getD 0 default =
          colG) ∧
      buildFrameMap [[colG, colR, colG]]
          (buildRegistry [[colG, colR, colG]]).color_list_map 1 colG =
        some (rotate (([[colG, colR, colG]] : List (List Color)).getD 0 []) 2 1)) ∧
    buildFrameMap [[colG, colR, colG]]
        (buildRegistry [[colG, colR, colG]]).color_list_map 1 colG =
      some colG :=
  ⟨⟨by decide,
    last_occurrence_wins [[colG, colR, colG]] colG 0 (by decide) 2 (by decide)
      (by decide)
      (by intro m h1 h2 _; simp at h2; omega)
      0 (by decide) (by decide) 1⟩,
   by decide⟩

end ColorCycling
